import Mathlib

/-!
Verification of the table-reconstruction core of the pdf-to-excel repository
(file pdf2excel.py).  The core consists of three pure functions over
positioned text fragments:

  * group_text_into_rows : clusters fragments into rows by vertical position
    (stable sort by top, then a greedy fixed-anchor scan with threshold 5);
  * sort_row_into_columns : orders the fragments of one row by left coordinate
    (stable sort);
  * organize_into_table : composes the two and projects every fragment to its
    trimmed text.

Python sorted() is a stable sort; the output of a stable sort by a key is
uniquely determined by the input list and the key, so we embed it as the
stable insertion sort List.insertionSort with the non-strict key comparison
(which is stable in exactly the same sense).
-/

open List

/-- A positioned text fragment, as built by analyze_table_structure in the
source: the text together with the four integer bounding-box coordinates. -/
structure TextFragment where
  text : String
  left : Int
  right : Int
  top : Int
  bottom : Int
deriving DecidableEq

instance : Inhabited TextFragment := ⟨⟨"", 0, 0, 0, 0⟩⟩

/-- Key comparison used by the row grouper: sorted(text_blocks, key=lambda x: x[top]). -/
def byTop (a b : TextFragment) : Prop := a.top ≤ b.top

instance : DecidableRel byTop := fun a b => inferInstanceAs (Decidable (a.top ≤ b.top))

instance : IsTotal TextFragment byTop := ⟨fun a b => Int.le_total a.top b.top⟩

instance : IsTrans TextFragment byTop := ⟨fun _ _ _ hab hbc => le_trans hab hbc⟩

/-- Key comparison used by the column orderer: sorted(row_blocks, key=lambda x: x[left]). -/
def byLeft (a b : TextFragment) : Prop := a.left ≤ b.left

instance : DecidableRel byLeft := fun a b => inferInstanceAs (Decidable (a.left ≤ b.left))

instance : IsTotal TextFragment byLeft := ⟨fun a b => Int.le_total a.left b.left⟩

instance : IsTrans TextFragment byLeft := ⟨fun _ _ _ hab hbc => le_trans hab hbc⟩

/-- sorted_blocks = sorted(text_blocks, key=lambda x: x[top]) -- the stable
sort of the fragments by their top coordinate. -/
def sortedByTop (l : List TextFragment) : List TextFragment :=
  List.insertionSort byTop l

/-- The for-loop of group_text_into_rows: walks the sorted blocks carrying
current_row, current_row_y and the accumulated rows; appends a block to the
current row when abs(block.top - current_row_y) is at most 5, otherwise
closes the current row and restarts with the block as new anchor.  After the
loop the final current row is appended. -/
def groupLoop : List TextFragment → List TextFragment → Int →
    List (List TextFragment) → List (List TextFragment)
  | [], currentRow, _, rows => rows ++ [currentRow]
  | b :: rest, currentRow, y, rows =>
    if |b.top - y| ≤ 5 then
      groupLoop rest (currentRow ++ [b]) y rows
    else
      groupLoop rest [b] b.top (rows ++ [currentRow])

/-- group_text_into_rows from the source.  The Python code returns [] for an
empty input before sorting; since the sort of an empty list is empty, matching
on the sorted list gives the same function. -/
def group_text_into_rows (text_blocks : List TextFragment) : List (List TextFragment) :=
  match sortedByTop text_blocks with
  | [] => []
  | first :: rest => groupLoop rest [first] first.top []

/-- sort_row_into_columns from the source: the stable sort of one row by the
left coordinate. -/
def sort_row_into_columns (row_blocks : List TextFragment) : List TextFragment :=
  List.insertionSort byLeft row_blocks

/-- Python str.strip() on a character list: drop leading and trailing
whitespace. -/
def stripChars (l : List Char) : List Char :=
  ((l.dropWhile Char.isWhitespace).reverse.dropWhile Char.isWhitespace).reverse

/-- Python str.strip(): the string with surrounding whitespace removed. -/
def pyStrip (s : String) : String := String.mk (stripChars s.data)

/-- organize_into_table from the source: group into rows, order each row by
left, and project every block to block.text.strip(). -/
def organize_into_table (text_blocks : List TextFragment) : List (List String) :=
  (group_text_into_rows text_blocks).map
    (fun row => (sort_row_into_columns row).map (fun block => pyStrip block.text))

/-- Boolean test used by the grouping characterization: the block top lies
within the threshold 5 of the anchor value a. -/
def near (a : Int) (b : TextFragment) : Bool := decide (|b.top - a| ≤ 5)

/-- Characterization of the greedy fixed-anchor grouping on an already sorted
list: the first row is the head together with the longest prefix of blocks
within 5 of the head top, and grouping restarts on the remainder. -/
def groupSpec : List TextFragment → List (List TextFragment)
  | [] => []
  | f :: rest =>
    (f :: rest.takeWhile (near f.top)) :: groupSpec (rest.dropWhile (near f.top))
termination_by l => l.length
decreasing_by
  simpa using Nat.lt_succ_of_le (List.dropWhile_sublist _).length_le

/-- One step of the row grouper as the specification words it: append the
fragment to the current row when its top is within 5 of the current anchor,
otherwise close the row, start a new row with the fragment and reset the
anchor to its top.  State: (closed rows, current row, current anchor). -/
def rowGrouperStep (st : List (List TextFragment) × List TextFragment × Int)
    (b : TextFragment) : List (List TextFragment) × List TextFragment × Int :=
  if |b.top - st.2.2| ≤ 5 then (st.1, st.2.1 ++ [b], st.2.2)
  else (st.1 ++ [st.2.1], [b], b.top)

/-- The row grouper as the specification words it: process the fragments in
ascending order of top, seed the first row with the first fragment and its
top as anchor, fold the step over the rest, and close the final row. -/
def rowGrouperSpec (l : List TextFragment) : List (List TextFragment) :=
  match sortedByTop l with
  | [] => []
  | f :: rest =>
    let st := rest.foldl rowGrouperStep ([], [f], f.top)
    st.1 ++ [st.2.1]

theorem groupLoop_append (blocks : List TextFragment) :
    ∀ (row : List TextFragment) (y : Int) (rows : List (List TextFragment)),
      groupLoop blocks row y rows = rows ++ groupLoop blocks row y [] := by
  induction blocks with
  | nil => intro row y rows; simp [groupLoop]
  | cons b rest ih =>
    intro row y rows
    by_cases h : |b.top - y| ≤ 5
    · simp only [groupLoop, if_pos h]
      exact ih (row ++ [b]) y rows
    · simp only [groupLoop, if_neg h, List.nil_append]
      rw [ih [b] b.top (rows ++ [row]), ih [b] b.top [row]]
      simp

theorem groupLoop_eq_groupSpec :
    ∀ (blocks : List TextFragment) (row : List TextFragment) (y : Int),
      Sorted byTop blocks → (∀ b ∈ blocks, y ≤ b.top) →
      groupLoop blocks row y [] =
        (row ++ blocks.takeWhile (near y)) :: groupSpec (blocks.dropWhile (near y)) := by
  intro blocks
  induction blocks with
  | nil => intro row y _ _; simp [groupLoop, groupSpec]
  | cons b rest ih =>
    intro row y hs hy
    have hrest : Sorted byTop rest := hs.of_cons
    by_cases h : |b.top - y| ≤ 5
    · have hb : near y b = true := by simp [near, h]
      have hy2 : ∀ c ∈ rest, y ≤ c.top := fun c hc => hy c (List.mem_cons_of_mem b hc)
      simp only [groupLoop, if_pos h, List.takeWhile_cons, List.dropWhile_cons, hb,
        if_pos rfl]
      rw [ih (row ++ [b]) y hrest hy2]
      simp
    · have hb : near y b = false := by simp [near, h]
      have hy2 : ∀ c ∈ rest, b.top ≤ c.top :=
        fun c hc => List.rel_of_sorted_cons hs c hc
      simp only [groupLoop, if_neg h, List.takeWhile_cons, List.dropWhile_cons, hb,
        List.nil_append]
      rw [groupLoop_append rest [b] b.top [row], ih [b] b.top hrest hy2]
      simp [groupSpec]

theorem group_eq_groupSpec (l : List TextFragment) :
    group_text_into_rows l = groupSpec (sortedByTop l) := by
  have hs : Sorted byTop (sortedByTop l) := List.sorted_insertionSort byTop l
  cases h : sortedByTop l with
  | nil => simp [group_text_into_rows, h, groupSpec]
  | cons f rest =>
    rw [h] at hs
    have hrest : Sorted byTop rest := hs.of_cons
    have hbound : ∀ b ∈ rest, f.top ≤ b.top := fun b hb => List.rel_of_sorted_cons hs b hb
    simp only [group_text_into_rows, h]
    rw [groupLoop_eq_groupSpec rest [f] f.top hrest hbound]
    simp [groupSpec]

theorem groupLoop_eq_foldl :
    ∀ (blocks row : List TextFragment) (y : Int) (rows : List (List TextFragment)),
      groupLoop blocks row y rows =
        (blocks.foldl rowGrouperStep (rows, row, y)).1 ++
          [(blocks.foldl rowGrouperStep (rows, row, y)).2.1] := by
  intro blocks
  induction blocks with
  | nil => intro row y rows; simp [groupLoop]
  | cons b rest ih =>
    intro row y rows
    by_cases h : |b.top - y| ≤ 5
    · simp only [groupLoop, if_pos h, List.foldl_cons, rowGrouperStep, if_pos h]
      exact ih (row ++ [b]) y rows
    · simp only [groupLoop, if_neg h, List.foldl_cons, rowGrouperStep, if_neg h]
      exact ih [b] b.top (rows ++ [row])

/-- Claim C1: the row grouper processes the fragments in ascending order of
top; each subsequent fragment is appended to the current row exactly when the
absolute difference of its top and the current anchor is at most 5, otherwise
the current row is closed, a new row starts with the fragment and the anchor
is reset to its top; the anchor never moves while a row grows.  Stated as:
group_text_into_rows coincides with the fold that performs exactly that
process on the top-sorted fragments, and on the drift example with tops
0, 3, 4, 9 the tops 0, 3, 4 form one row while the fragment with top 9
starts a new row even though 9 is within 5 of 4. -/
theorem row_grouper_is_greedy_anchor_scan :
    (∀ l : List TextFragment, group_text_into_rows l = rowGrouperSpec l) ∧
      group_text_into_rows
          [⟨"s", 0, 1, 9, 10⟩, ⟨"q", 0, 1, 3, 4⟩, ⟨"p", 0, 1, 0, 1⟩, ⟨"r", 0, 1, 4, 5⟩] =
        [[⟨"p", 0, 1, 0, 1⟩, ⟨"q", 0, 1, 3, 4⟩, ⟨"r", 0, 1, 4, 5⟩], [⟨"s", 0, 1, 9, 10⟩]] := by
  constructor
  · intro l
    unfold rowGrouperSpec
    cases h : sortedByTop l with
    | nil => simp [group_text_into_rows, h]
    | cons f rest =>
      simp only [group_text_into_rows, h]
      exact groupLoop_eq_foldl rest [f] f.top []
  · decide

/-- Claim C6: on the empty fragment collection both the row grouper and the
table assembler return an empty result. -/
theorem empty_input_empty_table :
    group_text_into_rows [] = [] ∧ organize_into_table [] = [] := by
  constructor <;> rfl

theorem groupSpec_flatten : ∀ blocks : List TextFragment,
    (groupSpec blocks).flatten = blocks := by
  intro blocks
  induction blocks using groupSpec.induct with
  | case1 => simp [groupSpec]
  | case2 f rest ih => simp [groupSpec, ih]

theorem groupSpec_ne_nil : ∀ blocks : List TextFragment,
    ∀ row ∈ groupSpec blocks, row ≠ [] := by
  intro blocks
  induction blocks using groupSpec.induct with
  | case1 => simp [groupSpec]
  | case2 f rest ih =>
    intro row hrow
    rw [groupSpec] at hrow
    rcases List.mem_cons.mp hrow with h | h
    · subst h; simp
    · exact ih row h

theorem groupSpec_row_near : ∀ blocks : List TextFragment,
    ∀ row ∈ groupSpec blocks, ∀ b ∈ row, |b.top - row.headI.top| ≤ 5 := by
  intro blocks
  induction blocks using groupSpec.induct with
  | case1 => simp [groupSpec]
  | case2 f rest ih =>
    intro row hrow b hb
    rw [groupSpec] at hrow
    rcases List.mem_cons.mp hrow with h | h
    · subst h
      rcases List.mem_cons.mp hb with h' | h'
      · subst h'; simp
      · have := List.mem_takeWhile_imp h'
        simpa [near] using this
    · exact ih row h b hb

theorem mem_dropWhile_far :
    ∀ (rest : List TextFragment) (a : Int), Sorted byTop rest →
      (∀ b ∈ rest, a ≤ b.top) → ∀ y ∈ rest.dropWhile (near a), a + 5 < y.top := by
  intro rest
  induction rest with
  | nil => simp
  | cons b t ih =>
    intro a hs hb y hy
    by_cases h : near a b = true
    · rw [List.dropWhile_cons, if_pos h] at hy
      exact ih a hs.of_cons (fun c hc => hb c (List.mem_cons_of_mem b hc)) y hy
    · have hba : a ≤ b.top := hb b (List.mem_cons_self b t)
      have habs : |b.top - a| = b.top - a := abs_of_nonneg (by omega)
      have h5 : a + 5 < b.top := by
        have hgt : ¬ |b.top - a| ≤ 5 := by
          intro hc
          exact h (by simp [near, hc])
        rw [habs] at hgt
        omega
      rw [List.dropWhile_cons, if_neg h] at hy
      rcases List.mem_cons.mp hy with h' | h'
      · subst h'; exact h5
      · have : b.top ≤ y.top := List.rel_of_sorted_cons hs y h'
        omega

theorem groupSpec_pairwise_sep :
    ∀ blocks : List TextFragment, Sorted byTop blocks →
      (groupSpec blocks).Pairwise
        (fun r1 r2 => ∀ y ∈ r2, r1.headI.top + 5 < y.top) := by
  intro blocks
  induction blocks using groupSpec.induct with
  | case1 => intro _; simp [groupSpec]
  | case2 f rest ih =>
    intro hs
    have hrest : Sorted byTop rest := hs.of_cons
    have hdrop : Sorted byTop (rest.dropWhile (near f.top)) :=
      List.Pairwise.sublist (List.dropWhile_sublist _) hrest
    rw [groupSpec]
    refine List.Pairwise.cons ?_ (ih hdrop)
    intro r2 hr2 y hy
    have hy' : y ∈ rest.dropWhile (near f.top) := by
      rw [← groupSpec_flatten (rest.dropWhile (near f.top))]
      exact List.mem_flatten.mpr ⟨r2, hr2, hy⟩
    have hhead : (f :: rest.takeWhile (near f.top)).headI = f := rfl
    rw [hhead]
    exact mem_dropWhile_far rest f.top hrest
      (fun b hbm => List.rel_of_sorted_cons hs b hbm) y hy'

/-- Claim C2: in the output of the row grouper, every fragment of a row has a
top within 5 of the top of the row anchor (the first fragment of the row),
and for two fragments in different rows at least one of them is not within 5
of the anchor of the other one. -/
theorem clustering_invariant (l : List TextFragment) :
    (∀ row ∈ group_text_into_rows l, ∀ b ∈ row, |b.top - row.headI.top| ≤ 5) ∧
      (group_text_into_rows l).Pairwise
        (fun r1 r2 => ∀ x ∈ r1, ∀ y ∈ r2,
          ¬ |x.top - r2.headI.top| ≤ 5 ∨ ¬ |y.top - r1.headI.top| ≤ 5) := by
  rw [group_eq_groupSpec]
  have hs : Sorted byTop (sortedByTop l) := List.sorted_insertionSort byTop l
  constructor
  · exact groupSpec_row_near (sortedByTop l)
  · have hsep := groupSpec_pairwise_sep (sortedByTop l) hs
    refine hsep.imp ?_
    intro r1 r2 h x hx y hy
    refine Or.inr ?_
    intro hc
    have h1 := h y hy
    have h2 := le_abs_self (y.top - r1.headI.top)
    omega

/-- Witness for clustering_invariant at the drift example: the fragment with
top 3 lies within 5 of the anchor of its row, whose first fragment has top 0. -/
theorem clustering_invariant_witness :
    |(⟨"q", 0, 1, 3, 4⟩ : TextFragment).top -
        ([⟨"p", 0, 1, 0, 1⟩, ⟨"q", 0, 1, 3, 4⟩, ⟨"r", 0, 1, 4, 5⟩] :
          List TextFragment).headI.top| ≤ 5 :=
  (clustering_invariant
      [⟨"s", 0, 1, 9, 10⟩, ⟨"q", 0, 1, 3, 4⟩, ⟨"p", 0, 1, 0, 1⟩, ⟨"r", 0, 1, 4, 5⟩]).1
    [⟨"p", 0, 1, 0, 1⟩, ⟨"q", 0, 1, 3, 4⟩, ⟨"r", 0, 1, 4, 5⟩] (by decide)
    ⟨"q", 0, 1, 3, 4⟩ (by decide)

/-- Claim C8: any fragment in an earlier row has a strictly smaller top than
any fragment in a later row, so rows appear in ascending vertical order and
the fragment with the smaller top of two fragments in different rows is the
one in the earlier row. -/
theorem rows_ordered_by_top (l : List TextFragment) :
    (group_text_into_rows l).Pairwise
      (fun r1 r2 => ∀ x ∈ r1, ∀ y ∈ r2, x.top < y.top) := by
  rw [group_eq_groupSpec]
  have hs : Sorted byTop (sortedByTop l) := List.sorted_insertionSort byTop l
  have hnear := groupSpec_row_near (sortedByTop l)
  have hsep := groupSpec_pairwise_sep (sortedByTop l) hs
  refine List.Pairwise.imp_of_mem ?_ hsep
  intro r1 r2 h1 h2 hrel x hx y hy
  have hx5 : |x.top - r1.headI.top| ≤ 5 := hnear r1 h1 x hx
  have hx5' := le_abs_self (x.top - r1.headI.top)
  have hy5 := hrel y hy
  omega

/-- Claim C10: the rows returned by the row grouper partition the input: no
row is empty, flattening the rows gives a permutation of the input fragments,
and consequently the total number of table cells equals the number of input
fragments. -/
theorem grouping_partitions_input (l : List TextFragment) :
    (∀ row ∈ group_text_into_rows l, row ≠ []) ∧
      (group_text_into_rows l).flatten ~ l ∧
      ((organize_into_table l).map List.length).sum = l.length := by
  refine ⟨?_, ?_, ?_⟩
  · rw [group_eq_groupSpec]
    exact groupSpec_ne_nil (sortedByTop l)
  · rw [group_eq_groupSpec, groupSpec_flatten]
    exact List.perm_insertionSort byTop l
  · have hmap : (organize_into_table l).map List.length =
        (group_text_into_rows l).map List.length := by
      simp [organize_into_table, sort_row_into_columns, Function.comp,
        List.length_insertionSort]
    rw [hmap, ← List.length_flatten, group_eq_groupSpec, groupSpec_flatten]
    exact (List.perm_insertionSort byTop l).length_eq

/-- Witness for grouping_partitions_input: the first row of the drift example
is not empty. -/
theorem grouping_partitions_input_witness :
    ([⟨"p", 0, 1, 0, 1⟩, ⟨"q", 0, 1, 3, 4⟩, ⟨"r", 0, 1, 4, 5⟩] :
        List TextFragment) ≠ [] :=
  (grouping_partitions_input
      [⟨"s", 0, 1, 9, 10⟩, ⟨"q", 0, 1, 3, 4⟩, ⟨"p", 0, 1, 0, 1⟩, ⟨"r", 0, 1, 4, 5⟩]).1
    [⟨"p", 0, 1, 0, 1⟩, ⟨"q", 0, 1, 3, 4⟩, ⟨"r", 0, 1, 4, 5⟩] (by decide)

theorem groupSpec_singletons :
    ∀ l : List TextFragment, l.Pairwise (fun a b => a.top + 5 < b.top) →
      groupSpec l = l.map (fun b => [b]) := by
  intro l
  induction l with
  | nil => simp [groupSpec]
  | cons f rest ih =>
    intro h
    have h1 : ∀ b ∈ rest, f.top + 5 < b.top := (List.pairwise_cons.mp h).1
    have htake : rest.takeWhile (near f.top) = [] := by
      cases rest with
      | nil => rfl
      | cons b t =>
        have hfb : f.top + 5 < b.top := h1 b (List.mem_cons_self b t)
        have habs : |b.top - f.top| = b.top - f.top := abs_of_nonneg (by omega)
        have hnb : near f.top b = false := by
          simp only [near, decide_eq_false_iff_not]
          rw [habs]; omega
        rw [List.takeWhile_cons, if_neg (by simp [hnb])]
    have hdrop : rest.dropWhile (near f.top) = rest := by
      cases rest with
      | nil => rfl
      | cons b t =>
        have hfb : f.top + 5 < b.top := h1 b (List.mem_cons_self b t)
        have habs : |b.top - f.top| = b.top - f.top := abs_of_nonneg (by omega)
        have hnb : near f.top b = false := by
          simp only [near, decide_eq_false_iff_not]
          rw [habs]; omega
        rw [List.dropWhile_cons, if_neg (by simp [hnb])]
    rw [groupSpec, htake, hdrop, ih (List.pairwise_cons.mp h).2]
    rfl

/-- Claim C4: for fragments with strictly increasing tops spaced more than 5
apart, the assembled table has exactly one row per fragment and every row has
exactly one cell. -/
theorem well_separated_fragments_one_row_each (l : List TextFragment)
    (h : l.Pairwise (fun a b => a.top + 5 < b.top)) :
    (organize_into_table l).length = l.length ∧
      ∀ row ∈ organize_into_table l, row.length = 1 := by
  have hsorted : Sorted byTop l := h.imp (fun hab => by
    show _ ≤ _
    omega)
  have hl : sortedByTop l = l := hsorted.insertionSort_eq
  have hrows : group_text_into_rows l = l.map (fun b => [b]) := by
    rw [group_eq_groupSpec, hl, groupSpec_singletons l h]
  constructor
  · simp [organize_into_table, hrows]
  · intro row hrow
    simp only [organize_into_table, hrows, List.map_map, List.mem_map] at hrow
    obtain ⟨b, _, hb⟩ := hrow
    simp [← hb, sort_row_into_columns, List.insertionSort]

/-- Witness for well_separated_fragments_one_row_each: three fragments with
tops 0, 10, 20 give a three-row table of singleton rows. -/
theorem well_separated_fragments_one_row_each_witness :
    (organize_into_table
          [⟨"a", 0, 1, 0, 1⟩, ⟨"b", 0, 1, 10, 11⟩, ⟨"c", 0, 1, 20, 21⟩]).length =
        ([⟨"a", 0, 1, 0, 1⟩, ⟨"b", 0, 1, 10, 11⟩, ⟨"c", 0, 1, 20, 21⟩] :
          List TextFragment).length ∧
      ∀ row ∈ organize_into_table
          [⟨"a", 0, 1, 0, 1⟩, ⟨"b", 0, 1, 10, 11⟩, ⟨"c", 0, 1, 20, 21⟩],
        row.length = 1 :=
  well_separated_fragments_one_row_each
    [⟨"a", 0, 1, 0, 1⟩, ⟨"b", 0, 1, 10, 11⟩, ⟨"c", 0, 1, 20, 21⟩] (by decide)

theorem filter_orderedInsert_byLeft (c : Int) (b : TextFragment) :
    ∀ s : List TextFragment,
      (List.orderedInsert byLeft b s).filter (fun x => decide (x.left = c)) =
        if b.left = c then b :: s.filter (fun x => decide (x.left = c))
        else s.filter (fun x => decide (x.left = c)) := by
  intro s
  induction s with
  | nil =>
    by_cases hbc : b.left = c <;> simp [List.orderedInsert, List.filter_cons, hbc]
  | cons y t ih =>
    by_cases hby : byLeft b y
    · by_cases hbc : b.left = c <;>
        simp [List.orderedInsert, if_pos hby, List.filter_cons, hbc]
    · have hylt : y.left < b.left := lt_of_not_le hby
      by_cases hbc : b.left = c
      · have hyc : ¬ y.left = c := by omega
        simp [List.orderedInsert, if_neg hby, List.filter_cons, hyc, hbc, ih]
      · by_cases hyc : y.left = c <;>
          simp [List.orderedInsert, if_neg hby, List.filter_cons, hyc, hbc, ih]

theorem sort_row_filter_left (c : Int) :
    ∀ r : List TextFragment,
      (sort_row_into_columns r).filter (fun x => decide (x.left = c)) =
        r.filter (fun x => decide (x.left = c)) := by
  intro r
  simp only [sort_row_into_columns]
  induction r with
  | nil => rfl
  | cons b t ih =>
    rw [show List.insertionSort byLeft (b :: t) =
          List.orderedInsert byLeft b (List.insertionSort byLeft t) from rfl]
    rw [filter_orderedInsert_byLeft]
    by_cases hbc : b.left = c
    · rw [if_pos hbc, ih, List.filter_cons]
      simp [hbc]
    · rw [if_neg hbc, ih, List.filter_cons]
      simp [hbc]

/-- Claim C5: the column orderer returns the fragments of a row in
non-decreasing order of left, and the sort is stable: for every left value c,
the subsequence of fragments with left = c is exactly the subsequence they
formed in the input row, in the same order. -/
theorem column_orderer_sorted_and_stable (r : List TextFragment) :
    Sorted byLeft (sort_row_into_columns r) ∧
      ∀ c : Int,
        (sort_row_into_columns r).filter (fun x => decide (x.left = c)) =
          r.filter (fun x => decide (x.left = c)) :=
  ⟨List.sorted_insertionSort byLeft r, fun c => sort_row_filter_left c r⟩

/-- Claim C9: on the three fragments A at (left 0, top 0), B at (left 50,
top 0) and C at (left 0, top 100) the assembled table is [[A, B], [C]], and
in general every cell of the table is the stripped text of some input
fragment. -/
theorem scenario_and_trimmed_cells :
    organize_into_table
        [⟨"A", 0, 10, 0, 10⟩, ⟨"B", 50, 60, 0, 10⟩, ⟨"C", 0, 10, 100, 110⟩] =
      [["A", "B"], ["C"]] ∧
      ∀ l : List TextFragment, ∀ row ∈ organize_into_table l, ∀ cell ∈ row,
        ∃ b ∈ l, cell = pyStrip b.text := by
  constructor
  · decide
  · intro l row hrow cell hcell
    simp only [organize_into_table, List.mem_map] at hrow
    obtain ⟨r, hr, hrv⟩ := hrow
    subst hrv
    simp only [List.mem_map] at hcell
    obtain ⟨b, hb, hbv⟩ := hcell
    simp only [sort_row_into_columns] at hb
    have hbr : b ∈ r := (List.mem_insertionSort _).mp hb
    have hbl : b ∈ l := by
      have h1 : b ∈ (group_text_into_rows l).flatten := List.mem_flatten.mpr ⟨r, hr, hbr⟩
      rw [group_eq_groupSpec, groupSpec_flatten] at h1
      simp only [sortedByTop] at h1
      exact (List.mem_insertionSort _).mp h1
    exact ⟨b, hbl, hbv.symm⟩

/-- Witness for scenario_and_trimmed_cells: the cell C of the scenario table
is the stripped text of an input fragment. -/
theorem scenario_and_trimmed_cells_witness :
    ∃ b ∈ ([⟨"A", 0, 10, 0, 10⟩, ⟨"B", 50, 60, 0, 10⟩, ⟨"C", 0, 10, 100, 110⟩] :
        List TextFragment), "C" = pyStrip b.text :=
  scenario_and_trimmed_cells.2
    [⟨"A", 0, 10, 0, 10⟩, ⟨"B", 50, 60, 0, 10⟩, ⟨"C", 0, 10, 100, 110⟩]
    ["C"] (by decide) "C" (by decide)

theorem takeWhile_near_eq_filter :
    ∀ (rest : List TextFragment) (a : Int), Sorted byTop rest →
      (∀ b ∈ rest, a ≤ b.top) →
      rest.takeWhile (near a) = rest.filter (near a) := by
  intro rest
  induction rest with
  | nil => intro a _ _; rfl
  | cons b t ih =>
    intro a hs hb
    by_cases h : near a b = true
    · rw [List.takeWhile_cons, if_pos (by simp [h]), List.filter_cons, if_pos (by simp [h])]
      rw [ih a hs.of_cons (fun c hc => hb c (List.mem_cons_of_mem b hc))]
    · have hfil : t.filter (near a) = [] := by
        refine List.filter_eq_nil_iff.mpr ?_
        intro c hc
        have hac : a ≤ b.top := hb b (List.mem_cons_self b t)
        have hbc : b.top ≤ c.top := List.rel_of_sorted_cons hs c hc
        have hgt : ¬ |b.top - a| ≤ 5 := by
          intro hle
          exact h (by simp [near, hle])
        have habs : |b.top - a| = b.top - a := abs_of_nonneg (by omega)
        rw [habs] at hgt
        have habc : |c.top - a| = c.top - a := abs_of_nonneg (by omega)
        simp only [near, decide_eq_true_eq]
        rw [habc]
        omega
      rw [List.takeWhile_cons, if_neg (by simp [h]), List.filter_cons,
        if_neg (by simp [h]), hfil]
  
theorem dropWhile_near_eq_filter :
    ∀ (rest : List TextFragment) (a : Int), Sorted byTop rest →
      (∀ b ∈ rest, a ≤ b.top) →
      rest.dropWhile (near a) = rest.filter (fun b => ! near a b) := by
  intro rest
  induction rest with
  | nil => intro a _ _; rfl
  | cons b t ih =>
    intro a hs hb
    by_cases h : near a b = true
    · rw [List.dropWhile_cons, if_pos (by simp [h]), List.filter_cons,
        if_neg (by simp [h])]
      exact ih a hs.of_cons (fun c hc => hb c (List.mem_cons_of_mem b hc))
    · have hfil : t.filter (fun c => ! near a c) = t := by
        refine List.filter_eq_self.mpr ?_
        intro c hc
        have hac : a ≤ b.top := hb b (List.mem_cons_self b t)
        have hbc : b.top ≤ c.top := List.rel_of_sorted_cons hs c hc
        have hgt : ¬ |b.top - a| ≤ 5 := by
          intro hle
          exact h (by simp [near, hle])
        have habs : |b.top - a| = b.top - a := abs_of_nonneg (by omega)
        rw [habs] at hgt
        have habc : |c.top - a| = c.top - a := abs_of_nonneg (by omega)
        simp only [near, Bool.not_eq_eq_eq_not, Bool.not_true, decide_eq_false_iff_not]
        rw [habc]
        omega
      rw [List.dropWhile_cons, if_neg (by simp [h]), List.filter_cons,
        if_pos (by simp [h]), hfil]

theorem groupSpec_perm_pointwise :
    ∀ s : List TextFragment, ∀ s' : List TextFragment,
      Sorted byTop s → Sorted byTop s' → s ~ s' →
      List.Forall₂ (fun r r' => r ~ r') (groupSpec s) (groupSpec s') := by
  intro s
  induction s using groupSpec.induct with
  | case1 =>
    intro s' _ _ hp
    rw [List.perm_nil.mp hp.symm]
    simp [groupSpec]
  | case2 f rest ih =>
    intro s' hs hs' hp
    cases s' with
    | nil => exact absurd (List.perm_nil.mp hp) (by simp)
    | cons f' rest' =>
      have hf'mem : f' ∈ f :: rest := hp.symm.subset (List.mem_cons_self f' rest')
      have hfmem : f ∈ f' :: rest' := hp.subset (List.mem_cons_self f rest)
      have htop : f.top = f'.top := by
        have h1 : f.top ≤ f'.top := by
          rcases List.mem_cons.mp hf'mem with h | h
          · rw [h]
          · exact List.rel_of_sorted_cons hs f' h
        have h2 : f'.top ≤ f.top := by
          rcases List.mem_cons.mp hfmem with h | h
          · rw [h]
          · exact List.rel_of_sorted_cons hs' f h
        omega
      have hbnd : ∀ b ∈ rest, f.top ≤ b.top :=
        fun b hb => List.rel_of_sorted_cons hs b hb
      have hbnd' : ∀ b ∈ rest', f'.top ≤ b.top :=
        fun b hb => List.rel_of_sorted_cons hs' b hb
      have hrest : Sorted byTop rest := hs.of_cons
      have hrest' : Sorted byTop rest' := hs'.of_cons
      have hnf : near f.top f = true := by simp [near]
      have hnf' : near f.top f' = true := by simp [near, htop]
      have hrow : (f :: rest.takeWhile (near f.top)) ~
          (f' :: rest'.takeWhile (near f'.top)) := by
        rw [takeWhile_near_eq_filter rest f.top hrest hbnd,
          takeWhile_near_eq_filter rest' f'.top hrest' hbnd', ← htop]
        have e1 : f :: rest.filter (near f.top) = (f :: rest).filter (near f.top) := by
          rw [List.filter_cons, if_pos (by simp [hnf])]
        have e2 : f' :: rest'.filter (near f.top) = (f' :: rest').filter (near f.top) := by
          rw [List.filter_cons, if_pos (by simp [hnf'])]
        rw [e1, e2]
        exact hp.filter (near f.top)
      have hdropperm : rest.dropWhile (near f.top) ~ rest'.dropWhile (near f'.top) := by
        rw [dropWhile_near_eq_filter rest f.top hrest hbnd,
          dropWhile_near_eq_filter rest' f'.top hrest' hbnd', ← htop]
        have e1 : rest.filter (fun b => ! near f.top b) =
            (f :: rest).filter (fun b => ! near f.top b) := by
          rw [List.filter_cons, if_neg (by simp [hnf])]
        have e2 : rest'.filter (fun b => ! near f.top b) =
            (f' :: rest').filter (fun b => ! near f.top b) := by
          rw [List.filter_cons, if_neg (by simp [hnf'])]
        rw [e1, e2]
        exact hp.filter (fun b => ! near f.top b)
      have hdsort : Sorted byTop (rest.dropWhile (near f.top)) :=
        List.Pairwise.sublist (List.dropWhile_sublist _) hrest
      have hdsort' : Sorted byTop (rest'.dropWhile (near f'.top)) :=
        List.Pairwise.sublist (List.dropWhile_sublist _) hrest'
      rw [groupSpec, groupSpec]
      exact List.Forall₂.cons hrow (ih _ hdsort hdsort' hdropperm)

/-- Lexicographic comparison on (left, top): the order in which a stable sort
by left lists the fragments of a top-sorted row. -/
def byLex (a b : TextFragment) : Prop :=
  a.left < b.left ∨ (a.left = b.left ∧ a.top ≤ b.top)

theorem orderedInsert_byLex_sorted (b : TextFragment) :
    ∀ s : List TextFragment, Sorted byLex s → (∀ y ∈ s, b.top ≤ y.top) →
      Sorted byLex (List.orderedInsert byLeft b s) := by
  intro s
  induction s with
  | nil => intro _ _; exact List.sorted_singleton b
  | cons y t ih =>
    intro hs hb
    by_cases hby : byLeft b y
    · have hby' : b.left ≤ y.left := hby
      rw [List.orderedInsert, if_pos hby]
      refine List.Pairwise.cons ?_ hs
      intro z hz
      rcases List.mem_cons.mp hz with h | hz'
      · subst h
        by_cases hlt : b.left < z.left
        · exact Or.inl hlt
        · exact Or.inr ⟨le_antisymm hby' (not_lt.mp hlt), hb z hz⟩
      · have hyz : byLex y z := List.rel_of_sorted_cons hs z hz'
        by_cases hlt : b.left < z.left
        · exact Or.inl hlt
        · have hle : b.left ≤ z.left := by
            rcases hyz with h1 | ⟨h1, _⟩ <;> omega
          exact Or.inr ⟨le_antisymm hle (not_lt.mp hlt), hb z hz⟩
    · have hyb : y.left < b.left := lt_of_not_le hby
      rw [List.orderedInsert, if_neg hby]
      refine List.Pairwise.cons ?_
        (ih hs.of_cons (fun z hz => hb z (List.mem_cons_of_mem y hz)))
      intro z hz
      rcases (List.mem_orderedInsert byLeft).mp hz with h | hz'
      · subst h; exact Or.inl hyb
      · exact List.rel_of_sorted_cons hs z hz'

theorem sort_row_byLex_sorted :
    ∀ r : List TextFragment, Sorted byTop r → Sorted byLex (sort_row_into_columns r) := by
  intro r
  simp only [sort_row_into_columns]
  induction r with
  | nil => intro _; exact List.sorted_nil
  | cons b t ih =>
    intro hr
    rw [show List.insertionSort byLeft (b :: t) =
          List.orderedInsert byLeft b (List.insertionSort byLeft t) from rfl]
    refine orderedInsert_byLex_sorted b _ (ih hr.of_cons) ?_
    intro y hy
    exact List.rel_of_sorted_cons hr y ((List.mem_insertionSort _).mp hy)

theorem byLex_perm_eq :
    ∀ l₁ l₂ : List TextFragment, l₁ ~ l₂ → Sorted byLex l₁ → Sorted byLex l₂ →
      (∀ a ∈ l₁, ∀ b ∈ l₁, a.top = b.top → a.left = b.left → a = b) →
      l₁ = l₂ := by
  intro l₁
  induction l₁ with
  | nil => intro l₂ hp _ _ _; exact (List.perm_nil.mp hp.symm).symm
  | cons a t₁ ih =>
    intro l₂ hp hs₁ hs₂ hinj
    cases l₂ with
    | nil => exact absurd (List.perm_nil.mp hp) (by simp)
    | cons b t₂ =>
      have hab : a = b := by
        rcases List.mem_cons.mp (hp.subset (List.mem_cons_self a t₁)) with h | hat₂
        · exact h
        · rcases List.mem_cons.mp (hp.symm.subset (List.mem_cons_self b t₂)) with h | hbt₁
          · exact h.symm
          · have h1 : byLex a b := List.rel_of_sorted_cons hs₁ b hbt₁
            have h2 : byLex b a := List.rel_of_sorted_cons hs₂ a hat₂
            have hleft : a.left = b.left := by
              rcases h1 with h1 | ⟨h1, _⟩ <;> rcases h2 with h2 | ⟨h2, _⟩ <;> omega
            have htop : a.top = b.top := by
              rcases h1 with h1 | ⟨h1l, h1t⟩ <;> rcases h2 with h2 | ⟨h2l, h2t⟩ <;> omega
            exact hinj a (List.mem_cons_self a t₁) b (List.mem_cons_of_mem a hbt₁)
              htop hleft
      subst hab
      have ht : t₁ = t₂ := by
        refine ih t₂ hp.cons_inv hs₁.of_cons hs₂.of_cons ?_
        intro x hx y hy
        exact hinj x (List.mem_cons_of_mem a hx) y (List.mem_cons_of_mem a hy)
      rw [ht]

theorem sort_row_eq_of_perm (r s : List TextFragment) (hp : r ~ s)
    (hr : Sorted byTop r) (hs : Sorted byTop s)
    (hinj : ∀ a ∈ r, ∀ b ∈ r, a.top = b.top → a.left = b.left → a = b) :
    sort_row_into_columns r = sort_row_into_columns s := by
  refine byLex_perm_eq _ _ ?_ (sort_row_byLex_sorted r hr) (sort_row_byLex_sorted s hs) ?_
  · exact ((List.perm_insertionSort byLeft r).trans hp).trans
      (List.perm_insertionSort byLeft s).symm
  · intro x hx y hy
    exact hinj x ((List.mem_insertionSort _).mp hx) y ((List.mem_insertionSort _).mp hy)

theorem groupSpec_rows_sublist :
    ∀ blocks : List TextFragment, ∀ row ∈ groupSpec blocks, row <+ blocks := by
  intro blocks
  induction blocks using groupSpec.induct with
  | case1 => simp [groupSpec]
  | case2 f rest ih =>
    intro row hrow
    rw [groupSpec] at hrow
    rcases List.mem_cons.mp hrow with h | h
    · subst h
      exact List.Sublist.cons₂ f (List.takeWhile_sublist _)
    · exact ((ih row h).trans (List.dropWhile_sublist _)).trans
        (List.sublist_cons_self f rest)

theorem map_project_eq :
    ∀ R S : List (List TextFragment), List.Forall₂ (fun r s => r ~ s) R S →
      (∀ r ∈ R, Sorted byTop r) → (∀ s ∈ S, Sorted byTop s) →
      (∀ r ∈ R, ∀ a ∈ r, ∀ b ∈ r, a.top = b.top → a.left = b.left → a = b) →
      R.map (fun row => (sort_row_into_columns row).map (fun block => pyStrip block.text)) =
        S.map (fun row => (sort_row_into_columns row).map (fun block => pyStrip block.text)) := by
  intro R S hf
  induction hf with
  | nil => intro _ _ _; rfl
  | @cons r s R' S' hpair hrest ih =>
    intro h1 h2 h3
    simp only [List.map_cons]
    rw [sort_row_eq_of_perm r s hpair (h1 r (List.mem_cons_self r R'))
      (h2 s (List.mem_cons_self s S')) (h3 r (List.mem_cons_self r R'))]
    rw [ih (fun r' hr' => h1 r' (List.mem_cons_of_mem r hr'))
      (fun s' hsx => h2 s' (List.mem_cons_of_mem s hsx))
      (fun r' hr' => h3 r' (List.mem_cons_of_mem r hr'))]

/-- Counterexample to claim C3 as stated: two fragments that share both top
and left (a tie the documented tie-break does not resolve) but carry
different texts.  Swapping them permutes the input yet changes the table,
so the result of the assembler is not invariant under every permutation. -/
theorem table_depends_on_input_order :
    ([⟨"y", 0, 1, 0, 1⟩, ⟨"x", 0, 1, 0, 1⟩] : List TextFragment) ~
        [⟨"x", 0, 1, 0, 1⟩, ⟨"y", 0, 1, 0, 1⟩] ∧
      organize_into_table [⟨"y", 0, 1, 0, 1⟩, ⟨"x", 0, 1, 0, 1⟩] ≠
        organize_into_table [⟨"x", 0, 1, 0, 1⟩, ⟨"y", 0, 1, 0, 1⟩] :=
  ⟨List.Perm.swap _ _ _, by decide⟩

/-- Claim C3 amended: when no two distinct fragments share both top and left
(the only ties the stable sorts break by input order), the assembled table is
the same for every permutation of the fragment collection. -/
theorem table_order_independent_of_distinct_keys (l l' : List TextFragment)
    (hp : l ~ l') (hkeys : (l.map (fun b => (b.top, b.left))).Nodup) :
    organize_into_table l' = organize_into_table l := by
  have hs : Sorted byTop (sortedByTop l) := List.sorted_insertionSort byTop l
  have hs' : Sorted byTop (sortedByTop l') := List.sorted_insertionSort byTop l'
  have hperm : sortedByTop l ~ sortedByTop l' :=
    ((List.perm_insertionSort byTop l).trans hp).trans
      (List.perm_insertionSort byTop l').symm
  have hf := groupSpec_perm_pointwise (sortedByTop l) (sortedByTop l') hs hs' hperm
  have hginj : ∀ a ∈ l, ∀ b ∈ l, a.top = b.top → a.left = b.left → a = b := by
    intro a ha b hb ht hl2
    exact List.inj_on_of_nodup_map hkeys ha hb (Prod.ext ht hl2)
  have hrowsub : ∀ r ∈ groupSpec (sortedByTop l), r <+ sortedByTop l :=
    groupSpec_rows_sublist (sortedByTop l)
  have h1 : ∀ r ∈ groupSpec (sortedByTop l), Sorted byTop r :=
    fun r hr => List.Pairwise.sublist (hrowsub r hr) hs
  have h2 : ∀ s ∈ groupSpec (sortedByTop l'), Sorted byTop s :=
    fun s hsx => List.Pairwise.sublist (groupSpec_rows_sublist (sortedByTop l') s hsx) hs'
  have h3 : ∀ r ∈ groupSpec (sortedByTop l), ∀ a ∈ r, ∀ b ∈ r,
      a.top = b.top → a.left = b.left → a = b := by
    intro r hr a ha b hb
    have hmem : ∀ x ∈ r, x ∈ l := by
      intro x hx
      have hx1 : x ∈ sortedByTop l := (hrowsub r hr).subset hx
      exact (List.mem_insertionSort _).mp hx1
    exact fun ht hl2 => hginj a (hmem a ha) b (hmem b hb) ht hl2
  have hmaps := map_project_eq _ _ hf h1 h2 h3
  unfold organize_into_table
  rw [group_eq_groupSpec, group_eq_groupSpec]
  exact hmaps.symm

/-- Witness for table_order_independent_of_distinct_keys: a concrete
permutation of the three-fragment scenario, whose (top, left) keys are
pairwise distinct, yields the same table. -/
theorem table_order_independent_witness :
    organize_into_table
        [⟨"B", 50, 60, 0, 10⟩, ⟨"C", 0, 10, 100, 110⟩, ⟨"A", 0, 10, 0, 10⟩] =
      organize_into_table
        [⟨"A", 0, 10, 0, 10⟩, ⟨"B", 50, 60, 0, 10⟩, ⟨"C", 0, 10, 100, 110⟩] :=
  table_order_independent_of_distinct_keys
    [⟨"A", 0, 10, 0, 10⟩, ⟨"B", 50, 60, 0, 10⟩, ⟨"C", 0, 10, 100, 110⟩]
    [⟨"B", 50, 60, 0, 10⟩, ⟨"C", 0, 10, 100, 110⟩, ⟨"A", 0, 10, 0, 10⟩]
    (by decide) (by decide)

/-- A Python value as it can appear in a fragment dictionary: an integer or
a string (a non-numeric coordinate). -/
inductive PyVal where
  | intV (n : Int)
  | strV (s : String)
deriving DecidableEq

/-- A raw fragment dictionary: every key may be missing, and coordinate
values may be non-numeric, modelling malformed fragments. -/
structure RawBlock where
  text : Option PyVal
  left : Option PyVal
  right : Option PyVal
  top : Option PyVal
  bottom : Option PyVal
deriving DecidableEq

/-- The dynamic errors Python can raise in the core on malformed fragments. -/
inductive PyError where
  | keyError
  | typeError
  | attributeError
deriving DecidableEq

/-- Dictionary access block[key]: KeyError when the key is missing. -/
def getKey (v : Option PyVal) : Except PyError PyVal :=
  match v with
  | some x => Except.ok x
  | none => Except.error PyError.keyError

/-- Python comparison a <= b: defined for two ints or two strings, TypeError
on mixed operand types. -/
def pyLe (a b : PyVal) : Except PyError Bool :=
  match a, b with
  | PyVal.intV m, PyVal.intV n => Except.ok (decide (m ≤ n))
  | PyVal.strV s, PyVal.strV t => Except.ok (decide (s ≤ t))
  | _, _ => Except.error PyError.typeError

/-- Python subtraction a - b as used on coordinates: ints only, TypeError
otherwise (also for two strings). -/
def pySub (a b : PyVal) : Except PyError Int :=
  match a, b with
  | PyVal.intV m, PyVal.intV n => Except.ok (m - n)
  | _, _ => Except.error PyError.typeError

/-- Insertion of a key-decorated block into an already sorted decorated
list, comparing keys with the fallible Python comparison. -/
def pyOrderedInsert (x : PyVal × RawBlock) :
    List (PyVal × RawBlock) → Except PyError (List (PyVal × RawBlock))
  | [] => Except.ok [x]
  | y :: t => do
    let c ← pyLe x.1 y.1
    if c then
      return x :: y :: t
    else
      let t' ← pyOrderedInsert x t
      return y :: t'

/-- Stable sort of the decorated list with fallible comparisons. -/
def pyInsertionSort : List (PyVal × RawBlock) → Except PyError (List (PyVal × RawBlock))
  | [] => Except.ok []
  | x :: t => do
    let t' ← pyInsertionSort t
    pyOrderedInsert x t'

/-- Python sorted(blocks, key=k): compute every key first (KeyError on a
missing key), then sort the list stably by key.  Python uses Timsort, which
can perform a different comparison sequence than insertion sort, so on
inputs with incomparable key types the two can surface the TypeError after
inspecting different elements; on inputs where no comparison occurs (fewer
than two elements) or where all keys are mutually comparable the two
coincide. -/
def pySortedBy (k : RawBlock → Option PyVal) (blocks : List RawBlock) :
    Except PyError (List RawBlock) := do
  let decorated ← blocks.mapM (fun b => do
    let v ← getKey (k b)
    return (v, b))
  let s ← pyInsertionSort decorated
  return s.map Prod.snd

/-- The grouping for-loop of group_text_into_rows over raw dictionaries:
current_row_y holds whatever value block[top] had, and the subtraction
abs(block[top] - current_row_y) raises TypeError unless both are ints. -/
def groupLoopChecked : List RawBlock → List RawBlock → PyVal →
    List (List RawBlock) → Except PyError (List (List RawBlock))
  | [], currentRow, _, rows => Except.ok (rows ++ [currentRow])
  | b :: rest, currentRow, y, rows => do
    let t ← getKey b.top
    let d ← pySub t y
    if |d| ≤ 5 then
      groupLoopChecked rest (currentRow ++ [b]) y rows
    else
      groupLoopChecked rest [b] t (rows ++ [currentRow])

/-- group_text_into_rows over raw dictionaries, with Python dynamic-error
semantics. -/
def group_text_into_rows_checked (text_blocks : List RawBlock) :
    Except PyError (List (List RawBlock)) :=
  if text_blocks.isEmpty then Except.ok []
  else do
    let sorted_blocks ← pySortedBy (fun b => b.top) text_blocks
    match sorted_blocks with
    | [] => Except.ok []
    | first :: rest => do
      let y ← getKey first.top
      groupLoopChecked rest [first] y []

/-- sort_row_into_columns over raw dictionaries. -/
def sort_row_into_columns_checked (row_blocks : List RawBlock) :
    Except PyError (List RawBlock) :=
  pySortedBy (fun b => b.left) row_blocks

/-- block[text].strip(): KeyError on a missing text key, AttributeError when
the value is an int (ints have no strip method). -/
def pyStripChecked (v : Option PyVal) : Except PyError String :=
  match v with
  | none => Except.error PyError.keyError
  | some (PyVal.strV s) => Except.ok (pyStrip s)
  | some (PyVal.intV _) => Except.error PyError.attributeError

/-- organize_into_table over raw dictionaries, with Python dynamic-error
semantics. -/
def organize_into_table_checked (text_blocks : List RawBlock) :
    Except PyError (List (List String)) := do
  let rows ← group_text_into_rows_checked text_blocks
  rows.mapM (fun row => do
    let sorted_row ← sort_row_into_columns_checked row
    sorted_row.mapM (fun block => pyStripChecked block.text))

/-- Claim C7 is violated by the code: on the input whose single fragment has
the non-numeric top coordinate "x", the whole pipeline runs to completion
and returns the table [["A"]].  No failure of any kind is signalled for this
malformed fragment, and the source has no InvalidFragment condition at all:
the only failures malformed fragments can provoke are the dynamic KeyError,
TypeError or AttributeError raised incidentally by sorting, subtraction or
strip, and this input reaches none of them. -/
theorem malformed_fragment_not_rejected :
    organize_into_table_checked
        [⟨some (PyVal.strV "A"), some (PyVal.intV 0), some (PyVal.intV 10),
          some (PyVal.strV "x"), some (PyVal.intV 10)⟩] =
      Except.ok [["A"]] := rfl
